import Mathlib

/-!
Shallow embedding of the incremental catalog-synchronization pipeline of the
repossessed-assets scrapers: link discovery and dedup, reconciliation against
the registry, the batch scrape orchestrator, persistence of records and images
(save and update), and the stale-link reprocessing loop.

Each definition is translated from the Python source it names in its doc
comment; theorems settle the frozen claims about the spec.
-/

/-! ## Stable dedup (first occurrence kept, order preserved)

Models the two dedup idioms of the source:
`list(dict.fromkeys(xs))` (banco-general.py line 152/160, caja_de_ahorros.py
line 103, banesco.py line 92) and the explicit `seen_urls` loop of
`save_property_data` (directus_tasks.py lines 164-172). Both keep the first
occurrence of each key and preserve order. -/

/-- First-occurrence dedup of a list by a string key, skipping keys already in
`seen`. With `key = id` this is `list(dict.fromkeys(xs))`; with
`key = source_url` it is the `seen_urls` loop of `save_property_data`. -/
def dedupByKey {α : Type} (key : α → String) (seen : List String) : List α → List α
  | [] => []
  | x :: xs =>
    if key x ∈ seen then dedupByKey key seen xs
    else x :: dedupByKey key (key x :: seen) xs

/-- The string-list specialization used by the link discoverers. -/
def stableDedup (seen : List String) (l : List String) : List String :=
  dedupByKey id seen l

theorem dedupByKey_nil {α : Type} (key : α → String) (seen : List String) :
    dedupByKey key seen [] = [] := rfl

theorem dedupByKey_cons {α : Type} (key : α → String) (seen : List String)
    (x : α) (xs : List α) :
    dedupByKey key seen (x :: xs) =
      if key x ∈ seen then dedupByKey key seen xs
      else x :: dedupByKey key (key x :: seen) xs := rfl

/-- Every kept element comes from the input and its key was not yet seen. -/
theorem mem_of_mem_dedupByKey {α : Type} {key : α → String} {seen : List String}
    {l : List α} {x : α} (hx : x ∈ dedupByKey key seen l) :
    x ∈ l ∧ key x ∉ seen := by
  induction l generalizing seen with
  | nil => simp [dedupByKey] at hx
  | cons a as ih =>
    rw [dedupByKey_cons] at hx
    by_cases h : key a ∈ seen
    · rw [if_pos h] at hx
      obtain ⟨h1, h2⟩ := ih hx
      exact ⟨List.mem_cons_of_mem _ h1, h2⟩
    · rw [if_neg h] at hx
      rcases List.mem_cons.mp hx with rfl | hx'
      · exact ⟨List.mem_cons_self _ _, h⟩
      · obtain ⟨h1, h2⟩ := ih hx'
        refine ⟨List.mem_cons_of_mem _ h1, fun hc => h2 ?_⟩
        exact List.mem_cons_of_mem _ hc

/-- Every input key outside `seen` survives in the output keys. -/
theorem key_mem_dedupByKey {α : Type} {key : α → String} {seen : List String}
    {l : List α} {x : α} (hx : x ∈ l) (hs : key x ∉ seen) :
    key x ∈ (dedupByKey key seen l).map key := by
  induction l generalizing seen with
  | nil => simp at hx
  | cons a as ih =>
    rw [dedupByKey_cons]
    by_cases h : key a ∈ seen
    · rw [if_pos h]
      rcases List.mem_cons.mp hx with rfl | hx'
      · exact absurd h hs
      · exact ih hx' hs
    · rw [if_neg h]
      rcases List.mem_cons.mp hx with rfl | hx'
      · simp
      · by_cases hk : key x = key a
        · simp [hk]
        · have : key x ∉ key a :: seen := by
            intro hc
            rcases List.mem_cons.mp hc with h1 | h1
            · exact hk h1
            · exact hs h1
          simpa using Or.inr (by simpa using ih hx' this)

/-- The output is a sublist of the input: relative order is preserved. -/
theorem dedupByKey_sublist {α : Type} (key : α → String) (seen : List String)
    (l : List α) : (dedupByKey key seen l).Sublist l := by
  induction l generalizing seen with
  | nil => simp [dedupByKey]
  | cons a as ih =>
    rw [dedupByKey_cons]
    by_cases h : key a ∈ seen
    · rw [if_pos h]
      exact (ih seen).trans (List.sublist_cons_self a as)
    · rw [if_neg h]
      exact List.Sublist.cons₂ a (ih (key a :: seen))

/-- The kept element for a key is the first input element carrying that key. -/
theorem dedupByKey_first_occurrence {α : Type} {key : α → String}
    {seen : List String} {l : List α} {x : α} (hx : x ∈ dedupByKey key seen l) :
    l.find? (fun y => key y == key x) = some x := by
  induction l generalizing seen with
  | nil => simp [dedupByKey] at hx
  | cons a as ih =>
    rw [dedupByKey_cons] at hx
    by_cases h : key a ∈ seen
    · rw [if_pos h] at hx
      have hkx : key x ∉ seen := (mem_of_mem_dedupByKey hx).2
      have hne : key a ≠ key x := fun hc => hkx (hc ▸ h)
      rw [List.find?_cons_of_neg _ (by simpa using hne)]
      exact ih hx
    · rw [if_neg h] at hx
      rcases List.mem_cons.mp hx with rfl | hx'
      · rw [List.find?_cons_of_pos _ (by simp)]
      · have hkx : key x ∉ key a :: seen := (mem_of_mem_dedupByKey hx').2
        have hne : key a ≠ key x := by
          intro hc
          exact hkx (hc ▸ List.mem_cons_self _ _)
        rw [List.find?_cons_of_neg _ (by simpa using hne)]
        exact ih hx'

/-- Output keys are pairwise distinct. -/
theorem dedupByKey_keys_nodup {α : Type} (key : α → String) (seen : List String)
    (l : List α) : ((dedupByKey key seen l).map key).Nodup := by
  induction l generalizing seen with
  | nil => simp [dedupByKey]
  | cons a as ih =>
    rw [dedupByKey_cons]
    by_cases h : key a ∈ seen
    · rw [if_pos h]; exact ih seen
    · rw [if_neg h]
      refine List.nodup_cons.mpr ⟨?_, ih (key a :: seen)⟩
      intro hc
      rcases List.mem_map.mp hc with ⟨b, hb, hkb⟩
      have := (mem_of_mem_dedupByKey hb).2
      exact this (hkb ▸ List.mem_cons_self _ _)

/-! ## Reconciler

Models `new_links = list(scraped_links_set - existing_links)` from
caja_de_ahorros.py lines 403-410 and banco-general.py lines 697-704: the
discovered links are collected into a set and the registry's existing set is
subtracted. -/

/-- Reconciliation step of every flow: discovered links (as scraped, possibly
with duplicates) minus the registry's existing set. -/
def reconcile (scraped_links : List String) (existing_links : Finset String) :
    Finset String :=
  scraped_links.toFinset \ existing_links

/-- C1: for all `discovered` and `existing`, `reconcile` returns exactly the
set difference `discovered − existing`, and running it again on an unchanged
`existing` set returns the same set (idempotent): subtracting `existing` from
the result changes nothing. -/
theorem reconcile_is_set_difference (scraped_links : List String)
    (existing_links : Finset String) :
    (∀ u, u ∈ reconcile scraped_links existing_links ↔
        u ∈ scraped_links ∧ u ∉ existing_links) ∧
      reconcile (reconcile scraped_links existing_links).toList existing_links =
        reconcile scraped_links existing_links := by
  constructor
  · intro u
    simp [reconcile]
  · simp only [reconcile]
    ext u
    simp only [Finset.mem_sdiff, List.mem_toFinset, Finset.mem_toList]
    tauto

/-! ## Stable dedup: composition and first-seen order -/

theorem stableDedup_nil (seen : List String) : stableDedup seen [] = [] := rfl

theorem stableDedup_cons (seen : List String) (x : String) (xs : List String) :
    stableDedup seen (x :: xs) =
      if x ∈ seen then stableDedup seen xs
      else x :: stableDedup (x :: seen) xs := by
  simp [stableDedup, dedupByKey_cons]

/-- Membership in the dedup output: exactly the input elements not in `seen`. -/
theorem mem_stableDedup {seen l : List String} {x : String} :
    x ∈ stableDedup seen l ↔ x ∈ l ∧ x ∉ seen := by
  constructor
  · intro h
    exact mem_of_mem_dedupByKey h
  · rintro ⟨hl, hs⟩
    have := @key_mem_dedupByKey String id seen l x hl hs
    simpa [stableDedup] using this

/-- The initial seen set only matters up to membership. -/
theorem stableDedup_congr_seen {seen seen' : List String} (l : List String)
    (h : ∀ x, x ∈ seen ↔ x ∈ seen') :
    stableDedup seen l = stableDedup seen' l := by
  induction l generalizing seen seen' with
  | nil => rfl
  | cons x xs ih =>
    rw [stableDedup_cons, stableDedup_cons]
    by_cases hx : x ∈ seen
    · rw [if_pos hx, if_pos ((h x).mp hx)]
      exact ih h
    · rw [if_neg hx, if_neg (fun hc => hx ((h x).mpr hc))]
      refine congrArg (x :: ·) (ih ?_)
      intro y
      simp only [List.mem_cons]
      exact or_congr Iff.rfl (h y)

/-- Deduplicating an already partially deduplicated list changes nothing, as
long as the inner pass only skipped keys the outer pass skips too. -/
theorem stableDedup_stableDedup {seen seen2 : List String} (l : List String)
    (hsub : ∀ x, x ∈ seen2 → x ∈ seen) :
    stableDedup seen (stableDedup seen2 l) = stableDedup seen l := by
  induction l generalizing seen seen2 with
  | nil => rfl
  | cons x xs ih =>
    rw [stableDedup_cons seen2, stableDedup_cons seen x xs]
    by_cases h2 : x ∈ seen2
    · rw [if_pos h2, if_pos (hsub x h2)]
      exact ih hsub
    · rw [if_neg h2, stableDedup_cons]
      by_cases hs : x ∈ seen
      · simp only [if_pos hs]
        refine ih ?_
        intro y hy
        rcases List.mem_cons.mp hy with rfl | hy'
        · exact hs
        · exact hsub y hy'
      · simp only [if_neg hs]
        refine congrArg (x :: ·) (ih ?_)
        intro y hy
        rcases List.mem_cons.mp hy with rfl | hy'
        · exact List.mem_cons_self _ _
        · exact List.mem_cons_of_mem _ (hsub y hy')

/-- Splitting a dedup over an append: the second half is deduplicated against
everything already seen in the first half. -/
theorem stableDedup_append (u v seen : List String) :
    stableDedup seen (u ++ v) = stableDedup seen u ++ stableDedup (u ++ seen) v := by
  induction u generalizing seen with
  | nil => rfl
  | cons x u' ih =>
    rw [List.cons_append, stableDedup_cons, stableDedup_cons seen x u']
    by_cases hx : x ∈ seen
    · rw [if_pos hx, if_pos hx, ih]
      refine congrArg (stableDedup seen u' ++ ·) (stableDedup_congr_seen v ?_)
      intro y
      constructor
      · intro hy
        rcases List.mem_append.mp hy with hy' | hy'
        · exact List.mem_append.mpr (Or.inl (List.mem_cons_of_mem _ hy'))
        · exact List.mem_append.mpr (Or.inr hy')
      · intro hy
        rcases List.mem_append.mp hy with hy' | hy'
        · rcases List.mem_cons.mp hy' with rfl | hy''
          · exact List.mem_append.mpr (Or.inr hx)
          · exact List.mem_append.mpr (Or.inl hy'')
        · exact List.mem_append.mpr (Or.inr hy')
    · rw [if_neg hx, if_neg hx, ih, List.cons_append]
      refine congrArg (x :: ·) (congrArg (stableDedup (x :: seen) u' ++ ·)
        (stableDedup_congr_seen v ?_))
      intro y
      simp only [List.mem_append, List.mem_cons]
      tauto

/-- A list with no duplicates and no seen keys passes through unchanged; in
particular dedup is idempotent. -/
theorem stableDedup_idem (l : List String) :
    stableDedup [] (stableDedup [] l) = stableDedup [] l :=
  stableDedup_stableDedup l (fun _ hx => hx)

/-- Cross-category dedup of per-category deduplicated lists equals one dedup of
the full concatenation (the structure of fetch_all_banco_general_urls). -/
theorem stableDedup_append_dedups (a b : List String) :
    stableDedup [] (stableDedup [] a ++ stableDedup [] b) =
      stableDedup [] (a ++ b) := by
  rw [stableDedup_append, stableDedup_append a b]
  rw [stableDedup_idem]
  refine congrArg (stableDedup [] a ++ ·) ?_
  have h1 : stableDedup (stableDedup [] a ++ []) (stableDedup [] b) =
      stableDedup a (stableDedup [] b) := by
    refine stableDedup_congr_seen _ ?_
    intro y
    rw [List.append_nil, mem_stableDedup]
    simp
  have h2 : stableDedup a (stableDedup [] b) = stableDedup a b :=
    stableDedup_stableDedup b (fun x hx => absurd hx (List.not_mem_nil x))
  rw [h1, h2]
  exact (stableDedup_congr_seen b (by simp)).symm

/-- Lifting a pairwise relation along a pointwise implication that may use
membership. -/
theorem pairwise_imp_mem {α : Type} {R S : α → α → Prop} {l : List α}
    (h : ∀ a ∈ l, ∀ b ∈ l, R a b → S a b) (hp : l.Pairwise R) : l.Pairwise S := by
  induction l with
  | nil => exact List.Pairwise.nil
  | cons x xs ih =>
    rcases List.pairwise_cons.mp hp with ⟨hx, hxs⟩
    refine List.pairwise_cons.mpr ⟨?_, ?_⟩
    · intro b hb
      exact h x (List.mem_cons_self _ _) b (List.mem_cons_of_mem _ hb) (hx b hb)
    · refine ih ?_ hxs
      intro a ha b hb
      exact h a (List.mem_cons_of_mem _ ha) b (List.mem_cons_of_mem _ hb)

/-- The output of a stable dedup is ordered by first occurrence in the input:
earlier output elements first occur earlier in the input (stable, not sorted). -/
theorem stableDedup_pairwise_indexOf (seen l : List String) :
    (stableDedup seen l).Pairwise (fun a b => l.indexOf a < l.indexOf b) := by
  induction l generalizing seen with
  | nil => exact List.Pairwise.nil
  | cons x xs ih =>
    rw [stableDedup_cons]
    by_cases hx : x ∈ seen
    · rw [if_pos hx]
      refine pairwise_imp_mem ?_ (ih seen)
      intro a ha b hb hr
      have hax : a ≠ x := fun hc => (mem_stableDedup.mp ha).2 (hc ▸ hx)
      have hbx : b ≠ x := fun hc => (mem_stableDedup.mp hb).2 (hc ▸ hx)
      rw [List.indexOf_cons_ne _ (Ne.symm hax), List.indexOf_cons_ne _ (Ne.symm hbx)]
      exact Nat.succ_lt_succ hr
    · rw [if_neg hx]
      refine List.pairwise_cons.mpr ⟨?_, ?_⟩
      · intro b hb
        have hbx : b ≠ x := fun hc =>
          (mem_stableDedup.mp hb).2 (hc ▸ List.mem_cons_self x seen)
        rw [List.indexOf_cons_self, List.indexOf_cons_ne _ (Ne.symm hbx)]
        exact Nat.succ_pos _
      · refine pairwise_imp_mem ?_ (ih (x :: seen))
        intro a ha b hb hr
        have hax : a ≠ x := fun hc =>
          (mem_stableDedup.mp ha).2 (hc ▸ List.mem_cons_self x seen)
        have hbx : b ≠ x := fun hc =>
          (mem_stableDedup.mp hb).2 (hc ▸ List.mem_cons_self x seen)
        rw [List.indexOf_cons_ne _ (Ne.symm hax), List.indexOf_cons_ne _ (Ne.symm hbx)]
        exact Nat.succ_lt_succ hr

/-- Dedup output has no duplicates. -/
theorem stableDedup_nodup (seen l : List String) : (stableDedup seen l).Nodup := by
  have := @dedupByKey_keys_nodup String id seen l
  simpa [stableDedup] using this

/-! ## Link Discoverer output models

The final dedup stage of each discoverer, exactly as the source composes it:

* caja_de_ahorros.py `fetch_all_urls` line 103:
  `unique_links = list(dict.fromkeys(property_links))` over the links collected
  from the catalog page.
* banco-general.py `fetch_all_banco_general_urls` lines 151-160: per category
  (viviendas, comerciales) `unique_page_links = list(dict.fromkeys(page_links))`
  extended into `all_links`, then a final
  `unique_all_links = list(dict.fromkeys(all_links))` across both categories. -/

/-- Output of `fetch_all_urls` (caja_de_ahorros.py) as a function of the raw
candidate link sequence scraped off the catalog. -/
def fetch_all_urls_output (property_links : List String) : List String :=
  stableDedup [] property_links

/-- Output of `fetch_all_banco_general_urls` as a function of the raw link
sequences collected for the two category base URLs (all pages concatenated). -/
def fetch_all_banco_general_urls_output (viviendas comerciales : List String) :
    List String :=
  stableDedup [] (stableDedup [] viviendas ++ stableDedup [] comerciales)

/-- C5: for any candidate link sequences with repeats across pages and
categories, the discoverer output contains exactly the distinct input links and
is ordered by first occurrence in the input (stable dedup, not sorted) — for
the single-category discoverer (caja) and the two-category one (banco-general)
alike. -/
theorem discoverer_dedup_first_seen_order (property_links viviendas comerciales :
    List String) :
    ((∀ u, u ∈ fetch_all_urls_output property_links ↔ u ∈ property_links) ∧
      (fetch_all_urls_output property_links).Nodup ∧
      (fetch_all_urls_output property_links).Pairwise
        (fun a b => property_links.indexOf a < property_links.indexOf b)) ∧
    ((∀ u, u ∈ fetch_all_banco_general_urls_output viviendas comerciales ↔
        u ∈ viviendas ++ comerciales) ∧
      (fetch_all_banco_general_urls_output viviendas comerciales).Nodup ∧
      (fetch_all_banco_general_urls_output viviendas comerciales).Pairwise
        (fun a b => (viviendas ++ comerciales).indexOf a <
          (viviendas ++ comerciales).indexOf b)) := by
  have hbg : fetch_all_banco_general_urls_output viviendas comerciales =
      stableDedup [] (viviendas ++ comerciales) :=
    stableDedup_append_dedups viviendas comerciales
  refine ⟨⟨?_, ?_, ?_⟩, ?_, ?_, ?_⟩
  · intro u
    rw [fetch_all_urls_output, mem_stableDedup]
    simp
  · exact stableDedup_nodup [] property_links
  · exact stableDedup_pairwise_indexOf [] property_links
  · intro u
    rw [hbg, mem_stableDedup]
    simp
  · rw [hbg]
    exact stableDedup_nodup [] (viviendas ++ comerciales)
  · rw [hbg]
    exact stableDedup_pairwise_indexOf [] (viviendas ++ comerciales)

/-! ## Pagination loops of the Link Discoverers

Models the `while True` page loops as fuel-indexed recursions over an oracle
`fetch : Nat → PageFetch` giving each page's fetch result; `none` means the
fuel ran out before the loop reached any of its exit conditions (so for every
fuel the loop is still running: non-termination in the fuel model).

* banco-general.py lines 57-149: on `requests.RequestException` (or any other
  exception) the handler logs, does `page_num += 1` and `continue`s — the loop
  advances past the erroring page. It breaks when the page carries the
  "No se encontraron propiedades" marker or yields zero property links.
* banesco.py lines 50-94: on `requests.RequestException` (or any other
  exception) the handler logs and `break`s — pagination ends at the erroring
  page and the links collected so far are returned. It also breaks on an
  `.error-404` element or zero property links. -/

/-- Result of fetching and parsing one catalog page: an HTTP/transport error,
or a parsed page with its "stop" marker (no-results text for banco-general,
the 404 element for banesco) and its extracted candidate links. -/
inductive PageFetch where
  | httpError : PageFetch
  | parsed (stopMarker : Bool) (links : List String) : PageFetch
deriving DecidableEq

/-- Page loop of `fetch_all_banco_general_urls` for one category base URL. -/
def bancoGeneralPageLoop (fetch : Nat → PageFetch) :
    Nat → Nat → List String → Option (List String)
  | 0, _, _ => none
  | fuel + 1, page_num, page_links =>
    match fetch page_num with
    | .httpError => bancoGeneralPageLoop fetch fuel (page_num + 1) page_links
    | .parsed true _ => some page_links
    | .parsed false links =>
      if links.isEmpty then some page_links
      else bancoGeneralPageLoop fetch fuel (page_num + 1) (page_links ++ links)

/-- Page loop of `fetch_all_banesco_urls`. -/
def banescoPageLoop (fetch : Nat → PageFetch) :
    Nat → Nat → List String → Option (List String)
  | 0, _, _ => none
  | fuel + 1, page_num, all_links =>
    match fetch page_num with
    | .httpError => some all_links
    | .parsed true _ => some all_links
    | .parsed false links =>
      if links.isEmpty then some all_links
      else banescoPageLoop fetch fuel (page_num + 1) (all_links ++ links)

/-- Fetch-result sequence where page 1 yields link u1, page 2 errors, page 3
yields link u2 and page 4 is empty (natural termination). -/
def errorOnPage2Fetch : Nat → PageFetch := fun p =>
  if p = 1 then .parsed false ["u1"]
  else if p = 2 then .httpError
  else if p = 3 then .parsed false ["u2"]
  else .parsed false []

/-- C6 counterexample: the banesco discoverer does not advance past an
erroring page. With an error on page 2 only, banesco's loop stops there and
misses page 3's link, while banco-general's loop (which does advance) collects
it. -/
theorem http_error_soft_failure_counterexample :
    banescoPageLoop errorOnPage2Fetch 10 1 [] = some ["u1"] ∧
      bancoGeneralPageLoop errorOnPage2Fetch 10 1 [] = some ["u1", "u2"] := by
  constructor <;> rfl

/-- C6 amended: an HTTP error on a catalog page never raises out of a
discoverer, but the two sources differ: banco-general's page loop advances to
the next page, while banesco's page loop stops at the erroring page and
returns the links collected so far. -/
theorem http_error_soft_failure_amended (fetch : Nat → PageFetch)
    (fuel page_num : Nat) (acc : List String)
    (herr : fetch page_num = .httpError) :
    bancoGeneralPageLoop fetch (fuel + 1) page_num acc =
        bancoGeneralPageLoop fetch fuel (page_num + 1) acc ∧
      banescoPageLoop fetch (fuel + 1) page_num acc = some acc := by
  constructor <;> simp [bancoGeneralPageLoop, banescoPageLoop, herr]

/-- Witness for the amended C6 theorem at the concrete erroring page 2. -/
theorem http_error_soft_failure_amended_witness :
    errorOnPage2Fetch 2 = .httpError ∧
      (bancoGeneralPageLoop errorOnPage2Fetch 10 2 ["u1"] =
          bancoGeneralPageLoop errorOnPage2Fetch 9 3 ["u1"] ∧
        banescoPageLoop errorOnPage2Fetch 10 2 ["u1"] = some ["u1"]) :=
  ⟨by decide, http_error_soft_failure_amended errorOnPage2Fetch 9 2 ["u1"] (by decide)⟩

/-- Fetch-result sequence where every page fetch errors. -/
def allErrorFetch : Nat → PageFetch := fun _ => .httpError

/-- Under an all-error fetch sequence the banco-general page loop never exits:
for every fuel it is still running. -/
theorem bancoGeneralPageLoop_allError (fetch : Nat → PageFetch)
    (herr : ∀ p, fetch p = .httpError) :
    ∀ fuel page_num acc, bancoGeneralPageLoop fetch fuel page_num acc = none := by
  intro fuel
  induction fuel with
  | zero => intro page_num acc; rfl
  | succ n ih =>
    intro page_num acc
    rw [bancoGeneralPageLoop, herr page_num]
    exact ih (page_num + 1) acc

/-- C7 counterexample: the banco-general discoverer does not terminate for
every fetch-result sequence — when page fetches keep erroring, no amount of
fuel makes its pagination loop reach a termination condition. -/
theorem discoverer_termination_counterexample :
    ¬ ∃ fuel, (bancoGeneralPageLoop allErrorFetch fuel 1 []).isSome := by
  rintro ⟨fuel, h⟩
  rw [bancoGeneralPageLoop_allError allErrorFetch (fun _ => rfl) fuel 1 []] at h
  simp at h

/-- C7 amended: when page fetches keep erroring, the banesco pagination loop
terminates at once (the error breaks the loop, returning the links collected
so far), but the banco-general pagination loop never reaches a termination
condition — its error branch only advances to the next page. -/
theorem discoverer_termination_amended (fetch : Nat → PageFetch)
    (fuel page_num : Nat) (acc : List String)
    (herr : ∀ p, fetch p = .httpError) :
    banescoPageLoop fetch (fuel + 1) page_num acc = some acc ∧
      bancoGeneralPageLoop fetch fuel page_num acc = none := by
  constructor
  · simp [banescoPageLoop, herr page_num]
  · exact bancoGeneralPageLoop_allError fetch herr fuel page_num acc

/-- Witness for the amended C7 theorem on the all-error fetch sequence. -/
theorem discoverer_termination_amended_witness :
    (∀ p, allErrorFetch p = .httpError) ∧
      (banescoPageLoop allErrorFetch 8 1 [] = some [] ∧
        bancoGeneralPageLoop allErrorFetch 7 1 [] = none) :=
  ⟨fun _ => rfl, discoverer_termination_amended allErrorFetch 7 1 [] (fun _ => rfl)⟩

/-! ## Persistence: save_property_data and update_property_data

Models directus_tasks.py. A record's scalar fields (price, address, rooms and
the rest) never influence the control flow of either task, so the embedding
keeps the two fields the claims depend on: `link_id` and the embedded image
list. HTTP responses are abstracted by their status codes; the primary write's
status and the image write's status are the two oracle inputs. Neither task
raises on a non-2xx status: both return a Boolean, so the model is a total
function. -/

/-- One extracted image: `source_url` is the dedup key, `title` the caption. -/
structure Image where
  source_url : String
  title : String
deriving DecidableEq

/-- The slice of a scraped record that persistence control flow reads. -/
structure PropertyData where
  link_id : String
  images : List Image
deriving DecidableEq

/-- One row posted to the repossessed_assets_images collection. -/
structure ImageItem where
  link_id : String
  source_url : String
  title : String
deriving DecidableEq

/-- Image row built for a given record, as in directus_tasks.py lines 174-181
and 380-387. -/
def mkImageItem (link_id : String) (img : Image) : ImageItem :=
  ⟨link_id, img.source_url, img.title⟩

/-- Outcome of a persistence call: returned Boolean, image rows posted, and
whether an image-write failure warning was logged. -/
structure PersistOutcome where
  success : Bool
  postedImages : List ImageItem
  imageWarning : Bool
deriving DecidableEq

/-- Model of `save_property_data` (directus_tasks.py lines 133-195): non-2xx
on the primary write returns false immediately; otherwise images (if any) are
deduplicated by `source_url` via the `seen_urls` loop and posted; a non-2xx on
the image write is only logged as a warning and the task still returns true. -/
def save_property_data (primaryStatus imageStatus : Nat) (pd : PropertyData) :
    PersistOutcome :=
  if primaryStatus ≠ 200 ∧ primaryStatus ≠ 201 then ⟨false, [], false⟩
  else if pd.images.isEmpty then ⟨true, [], false⟩
  else
    ⟨true,
      (dedupByKey (fun img => img.source_url) [] pd.images).map
        (mkImageItem pd.link_id),
      decide (imageStatus ≠ 200 ∧ imageStatus ≠ 201)⟩

/-- Model of `update_property_data` (directus_tasks.py lines 334-405): non-200
on the primary patch returns false immediately; otherwise the extracted images
are filtered against `existing_image_urls` (no within-call dedup) and the
remaining ones, if any, are posted; a non-2xx on the image write is only
logged. No image is ever deleted: the only image effect is the posted list. -/
def update_property_data (patchStatus imageStatus : Nat) (pd : PropertyData)
    (existing_image_urls : List String) : PersistOutcome :=
  if patchStatus ≠ 200 then ⟨false, [], false⟩
  else if pd.images.isEmpty then ⟨true, [], false⟩
  else if (pd.images.filter
      (fun img => !(existing_image_urls.contains img.source_url))).isEmpty then
    ⟨true, [], false⟩
  else
    ⟨true,
      (pd.images.filter
          (fun img => !(existing_image_urls.contains img.source_url))).map
        (mkImageItem pd.link_id),
      decide (imageStatus ≠ 200 ∧ imageStatus ≠ 201)⟩

/-- On a successful patch the posted rows are the in-order filter of the
extracted images against the previously-persisted url set. -/
theorem update_postedImages_eq (imageStatus : Nat) (pd : PropertyData)
    (existing_image_urls : List String) :
    (update_property_data 200 imageStatus pd existing_image_urls).postedImages =
      (pd.images.filter
          (fun img => !(existing_image_urls.contains img.source_url))).map
        (mkImageItem pd.link_id) := by
  unfold update_property_data
  rw [if_neg (by simp)]
  by_cases h1 : pd.images.isEmpty
  · rw [if_pos h1, List.isEmpty_iff.mp h1]
    rfl
  · rw [if_neg h1]
    by_cases h2 : (pd.images.filter
        (fun img => !(existing_image_urls.contains img.source_url))).isEmpty
    · rw [if_pos h2, List.isEmpty_iff.mp h2]
      rfl
    · rw [if_neg h2]

/-- C3: on a successful primary patch, `update_property_data` posts exactly
the extracted images whose `source_url` is not in the previously-persisted
set: the posted rows are the in-order filter of the extracted list, no posted
row carries an already-existing url, and an extracted url gets a row iff it is
not already persisted (images are never deleted — posting is the only image
effect of the model). -/
theorem update_record_image_idempotence (imageStatus : Nat) (pd : PropertyData)
    (existing_image_urls : List String) :
    ((update_property_data 200 imageStatus pd existing_image_urls).postedImages =
      (pd.images.filter
          (fun img => !(existing_image_urls.contains img.source_url))).map
        (mkImageItem pd.link_id)) ∧
    (∀ it ∈ (update_property_data 200 imageStatus pd
        existing_image_urls).postedImages, it.source_url ∉ existing_image_urls) ∧
    (∀ img ∈ pd.images,
      (img.source_url ∉ existing_image_urls ↔
        img.source_url ∈ ((update_property_data 200 imageStatus pd
          existing_image_urls).postedImages).map ImageItem.source_url)) := by
  have hposted := update_postedImages_eq imageStatus pd existing_image_urls
  refine ⟨hposted, ?_, ?_⟩
  · intro it hit
    rw [hposted] at hit
    rcases List.mem_map.mp hit with ⟨img, himg, rfl⟩
    have hf := List.of_mem_filter himg
    simpa [mkImageItem] using hf
  · intro img himg
    rw [hposted]
    constructor
    · intro hnot
      refine List.mem_map.mpr ⟨mkImageItem pd.link_id img, ?_, rfl⟩
      refine List.mem_map.mpr ⟨img, ?_, rfl⟩
      refine List.mem_filter.mpr ⟨himg, ?_⟩
      simpa using hnot
    · intro hmem
      rcases List.mem_map.mp hmem with ⟨it, hit, hurl⟩
      rcases List.mem_map.mp hit with ⟨img', himg', rfl⟩
      have hf := List.of_mem_filter himg'
      have : img'.source_url ∉ existing_image_urls := by simpa using hf
      rw [mkImageItem] at hurl
      simp only at hurl
      rw [← hurl]
      exact this

/-- On a successful primary write the rows posted by `save_property_data` are
the first-occurrence dedup of the extracted images. -/
theorem save_postedImages_eq (imageStatus : Nat) (pd : PropertyData) :
    (save_property_data 200 imageStatus pd).postedImages =
      (dedupByKey (fun img => img.source_url) [] pd.images).map
        (mkImageItem pd.link_id) := by
  unfold save_property_data
  rw [if_neg (by simp)]
  by_cases h1 : pd.images.isEmpty
  · rw [if_pos h1, List.isEmpty_iff.mp h1]
    rfl
  · rw [if_neg h1]

/-- C4 counterexample: `update_property_data` does not collapse duplicate
`source_url` values within one call. With extracted images `[⟨u, t1⟩, ⟨u, t2⟩]`
and an empty previously-persisted set, the single call posts two rows with the
same `source_url`. -/
theorem persistence_unique_source_url_counterexample :
    ¬ (((update_property_data 200 200
        ⟨"L", [⟨"u", "t1"⟩, ⟨"u", "t2"⟩]⟩ []).postedImages.map
          ImageItem.source_url).Nodup) := by
  decide

/-- C4 amended: within one `save_property_data` call the posted image rows
have unique `source_url` values, duplicates collapse to the first occurrence
and input order is preserved; `update_property_data`, however, only filters
against the previously-persisted set and posts the surviving input rows
verbatim — duplicates within its input are not collapsed. -/
theorem save_dedups_update_does_not (imageStatus : Nat) (pd : PropertyData)
    (existing_image_urls : List String) :
    (((save_property_data 200 imageStatus pd).postedImages.map
        ImageItem.source_url).Nodup ∧
      ((save_property_data 200 imageStatus pd).postedImages.Sublist
        (pd.images.map (mkImageItem pd.link_id))) ∧
      (∀ it ∈ (save_property_data 200 imageStatus pd).postedImages,
        pd.images.find? (fun im => im.source_url == it.source_url) =
          some ⟨it.source_url, it.title⟩) ∧
      (∀ img ∈ pd.images, img.source_url ∈
        (save_property_data 200 imageStatus pd).postedImages.map
          ImageItem.source_url)) ∧
    (update_property_data 200 imageStatus pd existing_image_urls).postedImages =
      (pd.images.filter
          (fun img => !(existing_image_urls.contains img.source_url))).map
        (mkImageItem pd.link_id) := by
  have hsave := save_postedImages_eq imageStatus pd
  refine ⟨⟨?_, ?_, ?_, ?_⟩, update_postedImages_eq imageStatus pd existing_image_urls⟩
  · rw [hsave, List.map_map]
    have : (ImageItem.source_url ∘ mkImageItem pd.link_id) =
        fun img => img.source_url := rfl
    rw [this]
    exact dedupByKey_keys_nodup _ [] pd.images
  · rw [hsave]
    exact (dedupByKey_sublist _ [] pd.images).map (mkImageItem pd.link_id)
  · intro it hit
    rw [hsave] at hit
    rcases List.mem_map.mp hit with ⟨img, himg, rfl⟩
    have := dedupByKey_first_occurrence himg
    simpa [mkImageItem] using this
  · intro img himg
    rw [hsave, List.map_map]
    have hc : (ImageItem.source_url ∘ mkImageItem pd.link_id) =
        fun im => im.source_url := rfl
    rw [hc]
    exact key_mem_dedupByKey himg (List.not_mem_nil _)

/-- C9: `save_property_data` returns true exactly when the primary write got a
2xx status (so non-2xx yields false, not an exception — the model is a total
function); the returned Boolean never depends on the image write's status, and
an image-write failure after a successful primary write is only logged as a
warning. -/
theorem save_record_error_handling (primaryStatus imageStatus : Nat)
    (pd : PropertyData) :
    ((save_property_data primaryStatus imageStatus pd).success = true ↔
      (primaryStatus = 200 ∨ primaryStatus = 201)) ∧
    (∀ imageStatus2, (save_property_data primaryStatus imageStatus pd).success =
      (save_property_data primaryStatus imageStatus2 pd).success) ∧
    ((save_property_data primaryStatus imageStatus pd).imageWarning = true ↔
      ((primaryStatus = 200 ∨ primaryStatus = 201) ∧ ¬pd.images.isEmpty ∧
        ¬(imageStatus = 200 ∨ imageStatus = 201))) := by
  refine ⟨?_, ?_, ?_⟩
  · by_cases hp : primaryStatus ≠ 200 ∧ primaryStatus ≠ 201
    · rw [save_property_data, if_pos hp]
      simp only [Bool.false_eq_true, false_iff]
      tauto
    · rw [save_property_data, if_neg hp]
      by_cases h1 : pd.images.isEmpty
      · rw [if_pos h1]
        simp only [true_iff]
        tauto
      · rw [if_neg h1]
        simp only [true_iff]
        tauto
  · intro imageStatus2
    by_cases hp : primaryStatus ≠ 200 ∧ primaryStatus ≠ 201
    · rw [save_property_data, save_property_data, if_pos hp, if_pos hp]
    · rw [save_property_data, save_property_data, if_neg hp, if_neg hp]
      by_cases h1 : pd.images.isEmpty
      · rw [if_pos h1, if_pos h1]
      · rw [if_neg h1, if_neg h1]
  · by_cases hp : primaryStatus ≠ 200 ∧ primaryStatus ≠ 201
    · rw [save_property_data, if_pos hp]
      simp only [Bool.false_eq_true, false_iff]
      tauto
    · rw [save_property_data, if_neg hp]
      by_cases h1 : pd.images.isEmpty
      · rw [if_pos h1]
        simp only [Bool.false_eq_true, false_iff]
        tauto
      · rw [if_neg h1]
        simp only [decide_eq_true_eq]
        constructor
        · intro h
          exact ⟨by tauto, by simpa using h1, by tauto⟩
        · intro h
          tauto

/-! ## Batch Scrape Orchestrator

Models the per-item branch of the batch loop shared verbatim by
caja_de_ahorros.py lines 443-467, banco_nacional.py lines 480-504,
banco-general.py lines 739-769 and banesco.py lines 386-414: for each resolved
future, if it completed and its result is a record, `save_property_data` is
awaited; only when it returns truthy is `mark_link_as_scraped` awaited and the
processed counter incremented. Any exception while handling one item is caught
by the surrounding `except` and only logged. Registry calls are abstracted as
oracles that either return a Boolean or raise. -/

/-- Result of an awaited registry call: a returned value or a raised
exception. -/
inductive CallResult (α : Type) where
  | ok (val : α) : CallResult α
  | exn : CallResult α
deriving DecidableEq

/-- Terminal state of one scraping future: the task failed, or completed with
`future.result()` raising, returning None, or returning a record. -/
inductive FutureOutcome where
  | failed : FutureOutcome
  | completed (result : CallResult (Option PropertyData)) : FutureOutcome
deriving DecidableEq

/-- Observable effects of handling one resolved future: whether save was
invoked and what it returned (`none` while not invoked or raised), whether the
mark-scraped call was issued, and the processed-counter increment. -/
structure ItemTrace where
  saveInvoked : Bool
  saveReturned : Option Bool
  markInvoked : Bool
  processedInc : Nat
deriving DecidableEq

/-- Handling of one resolved future in the batch loop. -/
def processDoneFuture (saveRes markRes : CallResult Bool)
    (fo : FutureOutcome) : ItemTrace :=
  match fo with
  | .failed => ⟨false, none, false, 0⟩
  | .completed .exn => ⟨false, none, false, 0⟩
  | .completed (.ok none) => ⟨false, none, false, 0⟩
  | .completed (.ok (some _)) =>
    match saveRes with
    | .exn => ⟨true, none, false, 0⟩
    | .ok false => ⟨true, some false, false, 0⟩
    | .ok true =>
      match markRes with
      | .exn => ⟨true, some true, true, 0⟩
      | .ok _ => ⟨true, some true, true, 1⟩

/-- C2: for every possible item state and registry behavior, the mark-scraped
call is issued iff that item's save call returned success; in particular a
save that returned failure (or raised, or was never reached) never leads to a
scraped mark. -/
theorem mark_scraped_iff_save_success (saveRes markRes : CallResult Bool)
    (fo : FutureOutcome) :
    (processDoneFuture saveRes markRes fo).markInvoked = true ↔
      (processDoneFuture saveRes markRes fo).saveReturned = some true := by
  cases fo with
  | failed => simp [processDoneFuture]
  | completed r =>
    cases r with
    | exn => simp [processDoneFuture]
    | ok opd =>
      cases opd with
      | none => simp [processDoneFuture]
      | some pd =>
        cases saveRes with
        | exn => simp [processDoneFuture]
        | ok b =>
          cases b with
          | false => simp [processDoneFuture]
          | true => cases markRes <;> simp [processDoneFuture]

/-! ## Batching and the completion report -/

/-- Splitting the worklist into fixed-size batches, as
`range(0, len(unscraped_links), batch_size)` with slices of `batch_size`. -/
def chunkList {α : Type} (size : Nat) : List α → List (List α)
  | [] => []
  | x :: xs => (x :: xs).take size :: chunkList size (xs.drop (size - 1))
termination_by l => l.length
decreasing_by simp [List.length_drop]; omega

/-- Concatenating the batches gives back the worklist (positive batch size). -/
theorem chunkList_flatten {α : Type} (s : Nat) (l : List α) :
    (chunkList (s + 1) l).flatten = l := by
  have H : ∀ n (l : List α), l.length ≤ n → (chunkList (s + 1) l).flatten = l := by
    intro n
    induction n with
    | zero =>
      intro l hl
      have hnil : l = [] := List.eq_nil_of_length_eq_zero (Nat.le_zero.mp hl)
      rw [hnil]
      simp [chunkList]
    | succ n ih =>
      intro l hl
      cases l with
      | nil => simp [chunkList]
      | cons x xs =>
        rw [chunkList]
        simp only [List.flatten_cons, Nat.add_sub_cancel]
        have hlen : xs.length ≤ n := by
          simp only [List.length_cons] at hl
          omega
        rw [ih (xs.drop s) (by simp only [List.length_drop]; omega)]
        rw [List.take_succ_cons, List.cons_append, List.take_append_drop]
  exact H l.length l (Nat.le_refl _)

/-- One worklist entry as returned by the unscraped-links query. -/
structure LinkItem where
  id : String
  link : String
deriving DecidableEq

/-- Number of processed items in one batch run of the orchestrator: per batch
of 5, the sum of the per-item increments. -/
def orchestratorProcessed (outcome : LinkItem → FutureOutcome)
    (saveRes markRes : LinkItem → CallResult Bool)
    (unscraped : List LinkItem) : Nat :=
  ((chunkList 5 unscraped).map (fun batch =>
    (batch.map (fun it =>
      (processDoneFuture (saveRes it) (markRes it) (outcome it)).processedInc)).sum)).sum

/-- Final report of a flow run: the early `return` when there is nothing to
process, or the completion line with processed count, total and the
`processed / total` quotient (the source renders it as a rounded percentage). -/
inductive RunReport where
  | noItems : RunReport
  | completedRun (processed total : Nat) (quotient : ℚ) : RunReport
deriving DecidableEq

/-- Tail of the scraping flows (caja_de_ahorros.py lines 420-475): early
return when the unscraped worklist is empty, otherwise the batch loop followed
by the completion log computing `total_processed / len(unscraped_links)`. -/
def scrapeFlowReport (outcome : LinkItem → FutureOutcome)
    (saveRes markRes : LinkItem → CallResult Bool)
    (unscraped : List LinkItem) : RunReport :=
  if unscraped.isEmpty then .noItems
  else
    .completedRun (orchestratorProcessed outcome saveRes markRes unscraped)
      unscraped.length
      ((orchestratorProcessed outcome saveRes markRes unscraped : ℚ) /
        unscraped.length)

/-- Each item contributes at most one processed increment. -/
theorem processedInc_le_one (saveRes markRes : CallResult Bool)
    (fo : FutureOutcome) :
    (processDoneFuture saveRes markRes fo).processedInc ≤ 1 := by
  cases fo with
  | failed => exact Nat.zero_le 1
  | completed r =>
    cases r with
    | exn => exact Nat.zero_le 1
    | ok opd =>
      cases opd with
      | none => exact Nat.zero_le 1
      | some pd =>
        cases saveRes with
        | exn => exact Nat.zero_le 1
        | ok b =>
          cases b with
          | false => exact Nat.zero_le 1
          | true => cases markRes <;> simp [processDoneFuture]

/-- A sum of per-element values each at most one is at most the length. -/
theorem sum_map_le_length {α : Type} (f : α → Nat) (l : List α)
    (hf : ∀ x, f x ≤ 1) : (l.map f).sum ≤ l.length := by
  induction l with
  | nil => simp
  | cons x xs ih =>
    simp only [List.map_cons, List.sum_cons, List.length_cons]
    have := hf x
    omega

/-- The batched processed count never exceeds the worklist length. -/
theorem orchestratorProcessed_le_length (outcome : LinkItem → FutureOutcome)
    (saveRes markRes : LinkItem → CallResult Bool)
    (unscraped : List LinkItem) :
    orchestratorProcessed outcome saveRes markRes unscraped ≤
      unscraped.length := by
  rw [orchestratorProcessed]
  have h4 : (5 : Nat) = 4 + 1 := rfl
  calc ((chunkList 5 unscraped).map (fun batch =>
        (batch.map (fun it => (processDoneFuture (saveRes it) (markRes it)
          (outcome it)).processedInc)).sum)).sum
      ≤ ((chunkList 5 unscraped).map List.length).sum := by
        refine List.sum_le_sum ?_
        intro b hb
        exact sum_map_le_length _ b (fun it => processedInc_le_one _ _ _)
    _ = unscraped.length := by
        rw [← List.length_flatten, h4, chunkList_flatten]

/-! ## Stale-Link Reconciliation Loop

Models `reprocess_stale_links` (stale_links_processor.py lines 35-158). Each
stale bundle carries company, link, link id, the related scrape_data row ids
and the previously scraped image rows. Per item the loop: validates link and
id, dispatches by company (only caja-de-ahorros, banco-general and
global-bank have scrapers), requires a non-empty scrape result, a first
scrape_data row with a non-empty id, then awaits `update_property_data` and on
success `mark_link_as_fresh`; every exit of every branch increments exactly
one of the two counters. The registry/scraper calls are abstracted as oracles
returning a value or raising. -/

/-- One row of the `scraped_images` relation (id and source_url). -/
structure ScrapedImageRow where
  id : String
  source_url : String
deriving DecidableEq

/-- One stale-link bundle from the GraphQL stale query. -/
structure StaleLinkData where
  company : String
  link : String
  id : String
  scrape_data : List String
  scraped_images : List ScrapedImageRow
deriving DecidableEq

/-- Companies with an entry in the scraper dispatch chain
(stale_links_processor.py lines 74-91). -/
def knownCompanies : List String :=
  ["caja-de-ahorros", "banco-general", "global-bank"]

/-- Existing image urls extracted from the bundle (lines 114-118): drop rows
whose source_url is falsy, keep the urls. -/
def existingImageUrls (ld : StaleLinkData) : List String :=
  (ld.scraped_images.filter (fun row => row.source_url ≠ "")).map
    ScrapedImageRow.source_url

/-- Oracle for the three calls made while handling one stale item. -/
structure StaleOracle where
  scrapeRes : CallResult (Option PropertyData)
  updateRes : CallResult Bool
  markFreshRes : CallResult Bool

/-- Outcome of one loop iteration: which counter it increments. -/
inductive ItemResult where
  | processedItem : ItemResult
  | failedItem : ItemResult
deriving DecidableEq

/-- Handling of one stale item (stale_links_processor.py lines 55-154). -/
def processStaleLink (o : StaleOracle) (ld : StaleLinkData) : ItemResult :=
  if ld.link = "" ∨ ld.id = "" then .failedItem
  else if ld.company ∉ knownCompanies then .failedItem
  else
    match o.scrapeRes with
    | .exn => .failedItem
    | .ok none => .failedItem
    | .ok (some _) =>
      match ld.scrape_data with
      | [] => .failedItem
      | sid :: _ =>
        if sid = "" then .failedItem
        else
          match o.updateRes with
          | .exn => .failedItem
          | .ok false => .failedItem
          | .ok true =>
            match o.markFreshRes with
            | .exn => .failedItem
            | .ok false => .failedItem
            | .ok true => .processedItem

/-- The two counters accumulated over the stale loop, left to right. -/
def staleCountsFrom (oracle : StaleLinkData → StaleOracle) (p f : Nat) :
    List StaleLinkData → Nat × Nat
  | [] => (p, f)
  | ld :: rest =>
    match processStaleLink (oracle ld) ld with
    | .processedItem => staleCountsFrom oracle (p + 1) f rest
    | .failedItem => staleCountsFrom oracle p (f + 1) rest

/-- Counter totals of one stale run. -/
def staleCounts (oracle : StaleLinkData → StaleOracle)
    (items : List StaleLinkData) : Nat × Nat :=
  staleCountsFrom oracle 0 0 items

/-- Final report of the stale flow (lines 43-47 and 156-158): early return on
an empty stale set, otherwise the completion line with both counters' ratio
denominator being the stale set size. -/
def staleFlowReport (oracle : StaleLinkData → StaleOracle)
    (items : List StaleLinkData) : RunReport :=
  if items.isEmpty then .noItems
  else
    .completedRun (staleCounts oracle items).1 items.length
      (((staleCounts oracle items).1 : ℚ) / items.length)

/-- Accumulator invariant of the stale loop counters. -/
theorem staleCountsFrom_spec (oracle : StaleLinkData → StaleOracle)
    (items : List StaleLinkData) :
    ∀ p f, (staleCountsFrom oracle p f items).1 +
      (staleCountsFrom oracle p f items).2 = p + f + items.length := by
  induction items with
  | nil => intro p f; simp [staleCountsFrom]
  | cons ld rest ih =>
    intro p f
    rw [staleCountsFrom]
    cases processStaleLink (oracle ld) ld with
    | processedItem =>
      simp only []
      rw [ih (p + 1) f]
      simp only [List.length_cons]
      omega
    | failedItem =>
      simp only []
      rw [ih p (f + 1)]
      simp only [List.length_cons]
      omega

/-- C10: every stale item increments exactly one of the two counters — the
totals always satisfy processed + failed = total — and an item counts as
processed precisely when every validation passes, the scrape yields data, the
update returns success and the mark-fresh call returns success. -/
theorem stale_counters_partition (oracle : StaleLinkData → StaleOracle)
    (items : List StaleLinkData) :
    ((staleCounts oracle items).1 + (staleCounts oracle items).2 =
      items.length) ∧
    (∀ ld : StaleLinkData,
      processStaleLink (oracle ld) ld = .processedItem ↔
        (¬(ld.link = "" ∨ ld.id = "") ∧ ld.company ∈ knownCompanies ∧
          (∃ pd, (oracle ld).scrapeRes = .ok (some pd)) ∧
          (∃ sid rest, ld.scrape_data = sid :: rest ∧ sid ≠ "") ∧
          (oracle ld).updateRes = .ok true ∧
          (oracle ld).markFreshRes = .ok true)) := by
  constructor
  · have := staleCountsFrom_spec oracle items 0 0
    simpa [staleCounts] using this
  · intro ld
    by_cases h1 : ld.link = "" ∨ ld.id = ""
    · simp [processStaleLink, h1]
    · by_cases h2 : ld.company ∈ knownCompanies
      · rcases hs : (oracle ld).scrapeRes with opd | _
        · cases opd with
          | none => simp [processStaleLink, h1, h2, hs]
          | some pd =>
            cases hsd : ld.scrape_data with
            | nil => simp [processStaleLink, h1, h2, hs, hsd]
            | cons sid rest =>
              by_cases hsid : sid = ""
              · simp [processStaleLink, h1, h2, hs, hsd, hsid]
              · rcases hu : (oracle ld).updateRes with b | _
                · cases b with
                  | false => simp [processStaleLink, h1, h2, hs, hsd, hsid, hu]
                  | true =>
                    rcases hm : (oracle ld).markFreshRes with c | _
                    · cases c with
                      | false =>
                        simp [processStaleLink, h1, h2, hs, hsd, hsid, hu, hm]
                      | true =>
                        simp [processStaleLink, h1, h2, hs, hsd, hsid, hu, hm]
                    · simp [processStaleLink, h1, h2, hs, hsd, hsid, hu, hm]
                · simp [processStaleLink, h1, h2, hs, hsd, hsid, hu]
        · simp [processStaleLink, h1, h2, hs]
      · simp [processStaleLink, h1, h2]

/-- The stale loop's processed count never exceeds the stale set size. -/
theorem staleCounts_fst_le_length (oracle : StaleLinkData → StaleOracle)
    (items : List StaleLinkData) :
    (staleCounts oracle items).1 ≤ items.length := by
  have h := staleCountsFrom_spec oracle items 0 0
  unfold staleCounts
  omega

/-- C8: both final reports state the quotient processed / total with the total
being the worklist (resp. stale set) size; the quotient is only ever formed
when that size is positive — an empty worklist or stale set takes the early
no-items return, so the division is unreachable — and the processed count
never exceeds the total. -/
theorem completion_ratio_no_div_by_zero (outcome : LinkItem → FutureOutcome)
    (saveRes markRes : LinkItem → CallResult Bool) (unscraped : List LinkItem)
    (oracle : StaleLinkData → StaleOracle) (stale : List StaleLinkData) :
    (scrapeFlowReport outcome saveRes markRes unscraped = .noItems ↔
      unscraped = []) ∧
    (∀ p n q, scrapeFlowReport outcome saveRes markRes unscraped =
        .completedRun p n q →
      n = unscraped.length ∧ 0 < n ∧ p ≤ n ∧ q = (p : ℚ) / n) ∧
    (staleFlowReport oracle stale = .noItems ↔ stale = []) ∧
    (∀ p n q, staleFlowReport oracle stale = .completedRun p n q →
      n = stale.length ∧ 0 < n ∧ p ≤ n ∧ q = (p : ℚ) / n) := by
  refine ⟨?_, ?_, ?_, ?_⟩
  · by_cases he : unscraped.isEmpty
    · simp [scrapeFlowReport, he, List.isEmpty_iff.mp he]
    · simp only [scrapeFlowReport, if_neg he]
      constructor
      · intro hc; cases hc
      · intro hc
        rw [hc] at he
        simp at he
  · intro p n q h
    by_cases he : unscraped.isEmpty
    · rw [scrapeFlowReport, if_pos he] at h
      cases h
    · rw [scrapeFlowReport, if_neg he] at h
      rcases RunReport.completedRun.injEq _ _ _ _ _ _ |>.mp h.symm with ⟨hp, hn, hq⟩
      subst hp; subst hn; subst hq
      refine ⟨rfl, ?_, orchestratorProcessed_le_length _ _ _ _, rfl⟩
      have : unscraped ≠ [] := fun hc => he (by simp [hc])
      exact List.length_pos.mpr this
  · by_cases he : stale.isEmpty
    · simp [staleFlowReport, he, List.isEmpty_iff.mp he]
    · simp only [staleFlowReport, if_neg he]
      constructor
      · intro hc; cases hc
      · intro hc
        rw [hc] at he
        simp at he
  · intro p n q h
    by_cases he : stale.isEmpty
    · rw [staleFlowReport, if_pos he] at h
      cases h
    · rw [staleFlowReport, if_neg he] at h
      rcases RunReport.completedRun.injEq _ _ _ _ _ _ |>.mp h.symm with ⟨hp, hn, hq⟩
      subst hp; subst hn; subst hq
      refine ⟨rfl, ?_, staleCounts_fst_le_length _ _, rfl⟩
      have : stale ≠ [] := fun hc => he (by simp [hc])
      exact List.length_pos.mpr this

/-- Concrete single-item inputs used to witness the completion-ratio theorem. -/
def witnessItem : LinkItem := ⟨"id1", "l1"⟩

/-- Outcome oracle where the single scrape yields a record. -/
def witnessOutcome : LinkItem → FutureOutcome :=
  fun _ => .completed (.ok (some ⟨"L", []⟩))

/-- Registry oracle that always succeeds. -/
def witnessRegistryOk : LinkItem → CallResult Bool := fun _ => .ok true

/-- Stale oracle where scrape, update and mark-fresh all succeed. -/
def witnessStaleOracle : StaleLinkData → StaleOracle :=
  fun _ => ⟨.ok (some ⟨"L", []⟩), .ok true, .ok true⟩

/-- A fully valid stale bundle. -/
def witnessStale : StaleLinkData := ⟨"caja-de-ahorros", "l", "i", ["s"], []⟩

/-- Witness for the completion-ratio theorem on concrete one-item runs. -/
theorem completion_ratio_no_div_by_zero_witness :
    ((scrapeFlowReport witnessOutcome witnessRegistryOk witnessRegistryOk
        [witnessItem] = .completedRun 1 1 1) ∧
      (1 = ([witnessItem] : List LinkItem).length ∧ 0 < 1 ∧ 1 ≤ 1 ∧
        (1 : ℚ) = (1 : ℚ) / 1)) ∧
    ((staleFlowReport witnessStaleOracle [witnessStale] = .completedRun 1 1 1) ∧
      (1 = ([witnessStale] : List StaleLinkData).length ∧ 0 < 1 ∧ 1 ≤ 1 ∧
        (1 : ℚ) = (1 : ℚ) / 1)) := by
  have hchunk : chunkList 5 [witnessItem] = [[witnessItem]] := by
    simp [chunkList]
  have hs : scrapeFlowReport witnessOutcome witnessRegistryOk witnessRegistryOk
      [witnessItem] = .completedRun 1 1 1 := by
    simp only [scrapeFlowReport, orchestratorProcessed, hchunk,
      processDoneFuture, witnessOutcome, witnessRegistryOk]
    norm_num
  have hst : staleFlowReport witnessStaleOracle [witnessStale] =
      .completedRun 1 1 1 := by
    simp only [staleFlowReport, staleCounts, staleCountsFrom, processStaleLink,
      witnessStaleOracle, witnessStale, knownCompanies]
    norm_num
    decide
  exact ⟨⟨hs, (completion_ratio_no_div_by_zero witnessOutcome witnessRegistryOk
      witnessRegistryOk [witnessItem] witnessStaleOracle [witnessStale]).2.1
      1 1 1 hs⟩,
    hst, (completion_ratio_no_div_by_zero witnessOutcome witnessRegistryOk
      witnessRegistryOk [witnessItem] witnessStaleOracle [witnessStale]).2.2.2
      1 1 1 hst⟩
